import Mathlib

/-!
# Verification of the gaby persistence substrate and action pipelines

This file shallowly embeds the parts of the gaby repository needed to check
the specification claims: the time-indexed storage layer (`timed.Set`,
`timed.Get`, `timed.ScanAfter`, `Watcher`), the in-memory vector search
(`memVectorDB.Search` with `VectorResult.cmp`), the related-issues poster
(`Poster.Run`), the GitHub event sync (`Client.syncIssueEvents`,
`Client.rateLimit`), the persisted key layout, and the Markdown comment
fixer (`Fixer.ReplaceText`, `Fixer.fixOne`, `Fixer.Fix`).

Modelling conventions:
* Go byte strings and `[]byte` keys are modelled as `String`; `ordered.Encode`
  is injective and self-delimiting, so encoded tuple keys are modelled at the
  tuple level and the distinct key namespaces (`kind`, `kind+"ByTime"`,
  `kind+"Watcher"`) become separate tables of one state record.
* The physical store is an ordered map; it is modelled by association lists,
  with scans sorting the relevant rows by the order of their encoded keys
  (for index rows: by `(modtime, key)`).
* `db.Panic` terminates the process; functions that may panic return
  `Except Unit` with `Except.error ()` standing for the panic.
* Vector components and similarity scores only ever feed comparisons, so
  `float32`/`float64` values are modelled as `Int`; the ordering structure
  of the code is unchanged by this choice.
-/

namespace Gaby

/-! ## Time-indexed storage (internal/storage/timed)

A primary row `(kind, key) → (modtime, val)` and an index row
`(kindByTime, modtime, key) → ()` per logical entry, plus the watcher
cursor rows `(kindWatcher, name) → modtime` and the process-wide
`lastTime` counter used by `now()`. -/

structure PrimRow where
  kind : String
  key : String
  modtime : Int
  val : String
deriving DecidableEq

structure IdxRow where
  kind : String
  modtime : Int
  key : String
deriving DecidableEq

structure TimedDB where
  prim : List PrimRow
  idx : List IdxRow
  cursors : List (String × String × Int)
  last : Int
deriving DecidableEq

/-- Model of `db.Get` on a primary key: the first row matching `(kind, key)`. -/
def primGet (db : TimedDB) (kind key : String) : Option PrimRow :=
  db.prim.find? fun r => r.kind == kind && r.key == key

/-- Batch operations staged by `timed.Set` and `timed.Delete`. -/
inductive Op where
  | setPrim (kind key : String) (t : Int) (val : String)
  | delPrim (kind key : String)
  | setIdx (kind : String) (t : Int) (key : String)
  | delIdx (kind : String) (t : Int) (key : String)
deriving DecidableEq

def applyOp (db : TimedDB) : Op → TimedDB
  | .setPrim kind key t val =>
      { db with prim :=
          ⟨kind, key, t, val⟩ :: db.prim.filter fun r => !(r.kind == kind && r.key == key) }
  | .delPrim kind key =>
      { db with prim := db.prim.filter fun r => !(r.kind == kind && r.key == key) }
  | .setIdx kind t key =>
      { db with idx :=
          ⟨kind, t, key⟩ :: db.idx.filter fun r => !(r == ⟨kind, t, key⟩) }
  | .delIdx kind t key =>
      { db with idx := db.idx.filter fun r => !(r == ⟨kind, t, key⟩) }

/-- Model of `Batch.Apply`: the staged operations are applied in order. -/
def applyBatch (db : TimedDB) (ops : List Op) : TimedDB := ops.foldl applyOp db

/-- Model of `now()`: `t := time.Now(); if t <= lastTime { t = lastTime + 1 }`,
with `clock` the current wall-clock reading. -/
def freshTime (clock : Int) (db : TimedDB) : Int :=
  if clock ≤ db.last then db.last + 1 else clock

/-- Model of `timed.Set(db, b, kind, key, val)`: consults `db`, stages the deletion of
the old index row (when a primary row exists), then the new index row and the
new primary row, on batch `b`; returns the extended batch and the state with
the advanced `lastTime` counter. -/
def timedSet (clock : Int) (db : TimedDB) (b : List Op) (kind key val : String) :
    List Op × TimedDB :=
  let t := freshTime clock db
  let b1 := match primGet db kind key with
    | some old => b ++ [Op.delIdx kind old.modtime key]
    | none => b
  (b1 ++ [Op.setIdx kind t key, Op.setPrim kind key t val], { db with last := t })

/-- Model of `timed.Entry`. -/
structure Entry where
  modtime : Int
  kind : String
  key : String
  val : String
deriving DecidableEq

/-- Model of `timed.Get(db, kind, key)`. -/
def timedGet (db : TimedDB) (kind key : String) : Option Entry :=
  (primGet db kind key).map fun r => ⟨r.modtime, kind, key, r.val⟩

/-- The index rows `(kind+"ByTime", ·, key)` present for one logical key. -/
def idxRowsFor (db : TimedDB) (kind key : String) : List IdxRow :=
  db.idx.filter fun r => r.kind == kind && r.key == key

/-- The data-model invariant of the timed layer (spec section 3): each
primary row has exactly one index row, at its current modtime; modtimes are
positive, unique per kind, and bounded by the `lastTime` counter. -/
def Inv (db : TimedDB) : Prop :=
  db.prim.Pairwise (fun r s => ¬(r.kind = s.kind ∧ r.key = s.key)) ∧
  db.idx.Nodup ∧
  0 ≤ db.last ∧
  (∀ r ∈ db.prim, 0 < r.modtime ∧ r.modtime ≤ db.last) ∧
  (∀ i ∈ db.idx, i.modtime ≤ db.last) ∧
  (∀ i ∈ db.idx, ∃ r ∈ db.prim, r.kind = i.kind ∧ r.key = i.key ∧ r.modtime = i.modtime) ∧
  (∀ r ∈ db.prim, (⟨r.kind, r.modtime, r.key⟩ : IdxRow) ∈ db.idx) ∧
  (∀ i ∈ db.idx, ∀ j ∈ db.idx, i.kind = j.kind → i.modtime = j.modtime → i = j)

instance (db : TimedDB) : Decidable (Inv db) := by
  unfold Inv; infer_instance

/-- Byte order of encoded index keys `ordered.Encode(kind+"ByTime", t) ++ key`
restricted to one kind: ordered by `(modtime, key)`. -/
def idxLE (i j : IdxRow) : Prop :=
  i.modtime < j.modtime ∨ (i.modtime = j.modtime ∧ i.key ≤ j.key)

instance : DecidableRel idxLE := fun i j => by
  unfold idxLE; infer_instance

instance : IsTotal IdxRow idxLE where
  total i j := by
    unfold idxLE
    rcases lt_trichotomy i.modtime j.modtime with h | h | h
    · exact Or.inl (Or.inl h)
    · rcases le_total i.key j.key with hk | hk
      · exact Or.inl (Or.inr ⟨h, hk⟩)
      · exact Or.inr (Or.inr ⟨h.symm, hk⟩)
    · exact Or.inr (Or.inl h)

instance : IsTrans IdxRow idxLE where
  trans i j k hij hjk := by
    unfold idxLE at *
    rcases hij with h1 | ⟨e1, k1⟩
    · rcases hjk with h2 | ⟨e2, _⟩
      · exact Or.inl (h1.trans h2)
      · exact Or.inl (e2 ▸ h1)
    · rcases hjk with h2 | ⟨e2, k2⟩
      · exact Or.inl (e1 ▸ h2)
      · exact Or.inr ⟨e1.trans e2, k1.trans k2⟩

/-- The index rows visited by `ScanAfter(db, kind, t, ·)`: the rows of the
`kind+"ByTime"` namespace with modtime ≥ t+1, in encoded-key order. -/
def scanRows (db : TimedDB) (kind : String) (t : Int) : List IdxRow :=
  List.insertionSort idxLE (db.idx.filter fun i => i.kind == kind && t < i.modtime)

/-- The optional key filter of `ScanAfter`: `filter != nil && !filter(key)`
means skip. -/
def passes (filter : Option (String → Bool)) (key : String) : Bool :=
  match filter with
  | none => true
  | some f => f key

/-- The body of the `ScanAfter` loop over index rows: skip filtered keys,
skip keys whose primary row is gone, skip stale index rows (primary newer
than the index entry), panic (`Except.error ()`) when the primary row is
older than the index entry, and otherwise yield the entry. -/
def scanGo (db : TimedDB) (kind : String) (filter : Option (String → Bool)) :
    List IdxRow → Except Unit (List Entry)
  | [] => .ok []
  | i :: rest =>
    if passes filter i.key then
      match primGet db kind i.key with
      | none => scanGo db kind filter rest
      | some r =>
        if i.modtime < r.modtime then scanGo db kind filter rest
        else if r.modtime < i.modtime then .error ()
        else (scanGo db kind filter rest).map fun l => ⟨i.modtime, kind, i.key, r.val⟩ :: l
    else scanGo db kind filter rest

/-- Model of `timed.ScanAfter(db, kind, t, filter)`. -/
def scanAfter (db : TimedDB) (kind : String) (t : Int)
    (filter : Option (String → Bool)) : Except Unit (List Entry) :=
  scanGo db kind filter (scanRows db kind t)

/-- The watcher cursor `(kind+"Watcher", name) → modtime`, defaulting to 0
when the row is absent (`Watcher.cutoff`). -/
def cursorGet (db : TimedDB) (kind name : String) : Int :=
  match db.cursors.find? (fun c => c.1 == kind && c.2.1 == name) with
  | some c => c.2.2
  | none => 0

def cursorSet (db : TimedDB) (kind name : String) (t : Int) : TimedDB :=
  { db with cursors :=
      (kind, name, t) :: db.cursors.filter fun c => !(c.1 == kind && c.2.1 == name) }

/-- Model of `Watcher.MarkOld(t)`: a no-op unless `t` exceeds the stored cursor. -/
def markOld (db : TimedDB) (kind name : String) (t : Int) : TimedDB :=
  if t ≤ cursorGet db kind name then db else cursorSet db kind name t

/-- One iteration of `Watcher.Recent()`: `ScanAfter` from the stored cursor
with no filter. -/
def recent (db : TimedDB) (kind name : String) : Except Unit (List Entry) :=
  scanAfter db kind (cursorGet db kind name) none

/-! ## Vector search (internal/storage: memVectorDB.Search, VectorResult.cmp)

Vector components and scores are `Int` (only comparisons and exact sums of
products are ever used). The in-memory cache `map[string][]float32` is an
association list with distinct ids. -/

structure VectorResult where
  id : String
  score : Int
deriving DecidableEq

/-- Model of `cmp.Compare` for `Int` as in Go: -1, 0, or +1. -/
def cmpInt (a b : Int) : Int :=
  if a < b then -1 else if b < a then 1 else 0

/-- Model of `cmp.Compare` for strings: Go compares strings byte-lexicographically,
modelled on the character list of the string. -/
def cmpString (a b : String) : Int :=
  if a.data < b.data then -1 else if b.data < a.data then 1 else 0

/-- Model of `VectorResult.cmp`: by score, then by id. -/
def VectorResult.cmpGo (x y : VectorResult) : Int :=
  if x.score ≠ y.score then cmpInt x.score y.score else cmpString x.id y.id

/-- Model of `llm.Vector.Dot`: sum of pairwise products over the common prefix. -/
def dot (v w : List Int) : Int := (List.zipWith (· * ·) v w).sum

/-- Relation: `x` is at least `y` in the order induced by `VectorResult.cmp`. -/
def vrGE (x y : VectorResult) : Prop := 0 ≤ VectorResult.cmpGo x y

instance : DecidableRel vrGE := fun x y => by
  unfold vrGE; infer_instance

/-- Modelled from the spec: the top-N accumulator `rsc.io/top` used by
`memVectorDB.Search` is not under src; per the spec it retains the n best
elements under the comparator and returns them best first ("returns the n
cached vectors maximizing dot", "Result ordered by descending score"):
sort into decreasing comparator order and take the first n. -/
def topTake (n : Nat) (xs : List VectorResult) : List VectorResult :=
  (List.insertionSort vrGE xs).take n

/-- The candidate results of `Search`: cached vectors whose length matches
the target, scored by dot product (vectors of other lengths are skipped). -/
def candidates (cache : List (String × List Int)) (target : List Int) :
    List VectorResult :=
  cache.filterMap fun nv =>
    if nv.2.length = target.length then some ⟨nv.1, dot target nv.2⟩ else none

/-- Model of `memVectorDB.Search(target, n)`. -/
def memSearch (cache : List (String × List Int)) (target : List Int) (n : Nat) :
    List VectorResult :=
  topTake n (candidates cache target)

/-- Strict descending order on results: larger score first, and among equal
scores the larger id first. -/
def vrStrictGT (x y : VectorResult) : Prop :=
  y.score < x.score ∨ (x.score = y.score ∧ y.id.data < x.id.data)

/-- The amended search contract: `memSearch` returns a prefix-optimal
selection of the candidates, best first under `VectorResult.cmp`. -/
def SearchSpec (cache : List (String × List Int)) (target : List Int) (n : Nat) : Prop :=
  ∃ rest,
    (candidates cache target).Perm (memSearch cache target n ++ rest) ∧
    (∀ x ∈ memSearch cache target n, ∀ y ∈ rest, vrGE x y) ∧
    (memSearch cache target n).length = min n (candidates cache target).length ∧
    (memSearch cache target n).Pairwise vrStrictGT ∧
    ∀ x ∈ memSearch cache target n,
      ∃ p ∈ cache, p.2.length = target.length ∧ x = ⟨p.1, dot target p.2⟩

/-! ## Related-issues poster (internal/related: Poster.Run)

The per-event body of `Poster.Run`, with the vector database, the search,
and the outcome of `PostIssueComment` supplied as oracles. -/

structure Issue where
  state : String
  isPullRequest : Bool
  createdAt : Option Int
  body : String
  title : String
deriving DecidableEq

structure GhEvent where
  project : String
  issue : Int
  api : String
  dbtime : Int
  data : Issue
deriving DecidableEq

structure PosterCfg where
  projects : List String
  post : Bool
  timeLimit : Int
  maxResults : Nat
  scoreCutoff : Int
  ignores : List (Issue → Bool)

structure PosterState where
  markers : List (String × Int)
  cursor : Int
deriving DecidableEq

/-- Model of `fmt.Sprintf("https://github.com/%s/issues/%d", e.Project, e.Issue)`. -/
def issueURL (project : String) (issue : Int) : String :=
  "https://github.com/" ++ project ++ "/issues/" ++ toString issue

/-- Trimming of the search results in `Poster.Run`: drop a leading exact
self-match, truncate at the first result below the score cutoff, and cap at
`maxResults`. -/
def trimResults (cfg : PosterCfg) (u : String) (results : List VectorResult) :
    List VectorResult :=
  let r1 := match results with
    | x :: rest => if x.id = u then rest else x :: rest
    | [] => []
  let r2 := r1.takeWhile fun r => decide (cfg.scoreCutoff ≤ r.score)
  if r2.length > cfg.maxResults then r2.take cfg.maxResults else r2

/-- Model of `Watcher.MarkOld` on the poster state. -/
def stMarkOld (st : PosterState) (t : Int) : PosterState :=
  if t ≤ st.cursor then st else { st with cursor := t }

/-- The outcome of processing one watcher event: the new state, whether
`PostIssueComment` was called, and whether it succeeded. -/
structure RunOutcome where
  state : PosterState
  attempted : Bool
  posted : Bool
deriving DecidableEq

/-- The body of the `Poster.Run` loop for one event, in source order:
project/api gate, closed/pull-request gate, creation-time parse and limit,
skip predicates, the `("triage.Posted", project, issue)` marker check, the
vector lookup, search and trimming, and the post with its marker write. -/
def processEvent (cfg : PosterCfg) (vget : String → Option (List Int))
    (vsearch : List Int → Nat → List VectorResult) (postOk : Bool)
    (st : PosterState) (e : GhEvent) : RunOutcome :=
  if ¬(e.project ∈ cfg.projects) ∨ e.api ≠ "/issues" then ⟨st, false, false⟩
  else if e.data.state = "closed" ∨ e.data.isPullRequest then ⟨st, false, false⟩
  else
    match e.data.createdAt with
    | none => ⟨st, false, false⟩
    | some tm =>
      if tm < cfg.timeLimit then ⟨st, false, false⟩
      else if cfg.ignores.any fun ig => ig e.data then ⟨st, false, false⟩
      else if (e.project, e.issue) ∈ st.markers then ⟨st, false, false⟩
      else
        match vget (issueURL e.project e.issue) with
        | none => ⟨st, false, false⟩
        | some vec =>
          let results :=
            trimResults cfg (issueURL e.project e.issue)
              (vsearch vec (cfg.maxResults + 5))
          if results = [] then
            if cfg.post then ⟨stMarkOld st e.dbtime, false, false⟩
            else ⟨st, false, false⟩
          else if ¬cfg.post then ⟨st, false, false⟩
          else if ¬postOk then ⟨st, true, false⟩
          else
            ⟨{ markers := (e.project, e.issue) :: st.markers,
               cursor := (stMarkOld st e.dbtime).cursor }, true, true⟩

/-! ## GitHub event sync (internal/github: Client.syncIssueEvents) -/

structure Meta where
  id : Int
  issueNumber : Int
deriving DecidableEq

structure Page where
  etag : String
  body : List Meta
deriving DecidableEq

/-- The `EventID`/`EventETag` half of `projectSync`. -/
structure ProjSync where
  eventID : Int
  eventETag : String
deriving DecidableEq

structure WalkState where
  firstID : Int
  firstETag : String
  lastID : Int
  stopped : Bool
  written : List (Int × Int)
deriving DecidableEq

def initWS : WalkState := ⟨0, "", 0, false, []⟩

/-- The per-event body of the `Pages` loop of `syncIssueEvents`: validate the
meta, record the first id and etag, remember the last id, stop at a
previously-seen id (or immediately when `onlySetLatest`), else write the
event. `Except.error` is a parse-error return carrying the events written
so far (the deferred `b.Apply` still commits them); the `Bool` is `break Pages`. -/
def stepMeta (eventID issue : Int) (onlySetLatest : Bool) (etag : String)
    (ws : WalkState) (m : Meta) : Except WalkState (WalkState × Bool) :=
  let number := if 0 < issue then issue else m.issueNumber
  if issue ≤ 0 ∧ m.issueNumber = 0 then .error ws
  else if m.id = 0 then .error ws
  else
    let ws1 := if ws.firstID = 0 then
      { ws with firstID := m.id, firstETag := etag } else ws
    let ws2 := { ws1 with lastID := m.id }
    if issue = 0 ∧ (onlySetLatest ∨ (eventID ≠ 0 ∧ m.id ≤ eventID)) then
      .ok ({ ws2 with stopped := true }, true)
    else .ok ({ ws2 with written := ws2.written ++ [(number, m.id)] }, false)

/-- The inner loop over one page body, propagating `break Pages`. -/
def walkMetas (eventID issue : Int) (onlySetLatest : Bool) (etag : String)
    (ws : WalkState) : List Meta → Except WalkState (WalkState × Bool)
  | [] => .ok (ws, false)
  | m :: rest =>
    match stepMeta eventID issue onlySetLatest etag ws m with
    | .error w => .error w
    | .ok (ws1, true) => .ok (ws1, true)
    | .ok (ws1, false) => walkMetas eventID issue onlySetLatest etag ws1 rest

/-- The `Pages` loop of `syncIssueEvents`. -/
def walkPages (eventID issue : Int) (onlySetLatest : Bool)
    (ws : WalkState) : List Page → Except WalkState WalkState
  | [] => .ok ws
  | p :: rest =>
    match walkMetas eventID issue onlySetLatest p.etag ws p.body with
    | .error w => .error w
    | .ok (ws1, true) => .ok ws1
    | .ok (ws1, false) => walkPages eventID issue onlySetLatest ws1 rest

/-- The outcome of `syncIssueEvents`: the events written, whether the sync
failed, and the resulting `EventID`/`EventETag` state (unchanged on every
error return). -/
structure SyncOut where
  written : List (Int × Int)
  failed : Bool
  proj : ProjSync
deriving DecidableEq

/-- Model of `Client.syncIssueEvents(proj, issue, onlySetLatest)` over a given page
sequence: walk backward through the feed; with `issue == 0`, events read but
no stop means the "lost sync" error, otherwise the first id and etag seen
become the new cursor. -/
def syncIssueEvents (proj : ProjSync) (issue : Int) (onlySetLatest : Bool)
    (pages : List Page) : SyncOut :=
  match walkPages proj.eventID issue onlySetLatest initWS pages with
  | .error w => ⟨w.written, true, proj⟩
  | .ok ws =>
    if issue = 0 ∧ ws.lastID ≠ 0 ∧ ws.stopped = false then ⟨ws.written, true, proj⟩
    else if issue = 0 then ⟨ws.written, false, ⟨ws.firstID, ws.firstETag⟩⟩
    else ⟨ws.written, false, proj⟩

/-! ## Rate limiting (internal/github: Client.rateLimit)

Times are in seconds. The reset header is modelled as the integer
`strconv.Atoi` result (0 for missing or unparsable). `time.Sleep` returns
immediately on a non-positive duration, so the slept time is clamped at 0. -/

/-- Model of `Client.rateLimit`: whether the response is a rate-limit response, and
the number of seconds actually slept. The sleep the code performs is
`now.Sub(t) + 1*time.Minute`, i.e. `now - reset + 60`. -/
def rateLimitGo (status : Int) (remaining : String) (reset : Int) (now : Int) :
    Bool × Int :=
  if status ≠ 403 ∨ remaining ≠ "0" then (false, 0)
  else if reset = 0 then (false, 0)
  else if reset < now then
    if 120 < now - reset then (false, 0) else (true, 0)
  else (true, max 0 (now - reset + 60))

/-- The sleep the claim (and the doc comment of `rateLimit`) specifies:
until the reset time plus one minute, i.e. `reset - now + 60` seconds. -/
def rateLimitSpecSleep (reset now : Int) : Int := reset - now + 60

/-! ## Persisted key layout (C8)

`ordered.Encode` is injective, so keys are modelled as their element
tuples. Each key below is built exactly as at its call site. -/

inductive KElem where
  | str (s : String)
  | int (i : Int)
deriving DecidableEq

/-- Model of `timed.Set` primary key layout: `ordered.Encode(kind)` followed by the
caller's encoded sub-key. -/
def dkeyOf (kind : String) (sub : List KElem) : List KElem := KElem.str kind :: sub

/-- Model of `projectSync.store`: `o("githubdl.ProjectSync", proj.Name)`. -/
def projectSyncKey (project : String) : List KElem :=
  [KElem.str "githubdl.ProjectSync", KElem.str project]

/-- Model of `Client.writeEvent`: `timed.Set(c.db, b, "githubdl.Event",
o(project, issue, api, id), ...)`. -/
def eventKey (project : String) (issue : Int) (api : String) (id : Int) :
    List KElem :=
  dkeyOf "githubdl.Event" [KElem.str project, KElem.int issue, KElem.str api, KElem.int id]

/-- Model of `memVectorDB.Set`: `ordered.Encode("llm.Vector", db.namespace, id)`. -/
def vectorKey (ns id : String) : List KElem :=
  [KElem.str "llm.Vector", KElem.str ns, KElem.str id]

/-- Model of `Poster.Run`: `ordered.Encode("triage.Posted", e.Project, e.Issue)`. -/
def postedKey (project : String) (issue : Int) : List KElem :=
  [KElem.str "triage.Posted", KElem.str project, KElem.int issue]

/-! ## Comment rewriter (internal/commentfix: Fixer)

The Markdown AST of `rsc.io/markdown` as far as `fixOne` observes it: the
blocks it recurses into (document, quote, list, item, heading, paragraph,
text) plus the container blocks it leaves alone (code and HTML blocks), and
the inline kinds. The parser and renderer are collaborators and appear as
abstract functions. -/

inductive MdInline where
  | plain (text : String)
  | code (text : String)
  | link (url : String) (inner : List MdInline)
  | autoLink (text : String) (url : String)
  | emph (inner : List MdInline)
  | strong (inner : List MdInline)
  | del (inner : List MdInline)

inductive MdBlock where
  | quote (blocks : List MdBlock)
  | listBlock (items : List MdBlock)
  | item (blocks : List MdBlock)
  | heading (inlines : List MdInline)
  | paragraph (inlines : List MdInline)
  | text (inlines : List MdInline)
  | codeBlock (body : String)
  | htmlBlock (body : String)

structure MdDoc where
  blocks : List MdBlock

/-- The possible results of one fix function applied to one inline:
`nil`, a single inline, a sequence of inlines, or an invalid type
(logged and dropped by `fixOne`). -/
inductive FixResult where
  | noChange
  | one (x : MdInline)
  | many (xs : List MdInline)
  | invalid

/-- A registered fix function: an inline and the inside-link flag. -/
abbrev FixFn := MdInline → Bool → FixResult

mutual

/-- The child-recursion step of `fixInlines`: descend into Del, Emph,
Strong and Link inners, counting link depth. -/
def fixChild (fix : FixFn) (d : Nat) : MdInline → MdInline × Bool
  | .del inner =>
    let r := fixList fix d inner
    (.del r.1, r.2)
  | .emph inner =>
    let r := fixList fix d inner
    (.emph r.1, r.2)
  | .strong inner =>
    let r := fixList fix d inner
    (.strong r.1, r.2)
  | .link url inner =>
    let r := fixList fix (d + 1) inner
    (.link url r.1, r.2)
  | .plain s => (.plain s, false)
  | .code s => (.code s, false)
  | .autoLink s u => (.autoLink s u, false)

/-- Model of `fixInlines`: for each inline, recurse into children, then apply the fix
function with the inside-link flag; `nil` and invalid results keep the
inline, a returned inline or sequence replaces it and reports a change. -/
def fixList (fix : FixFn) (d : Nat) : List MdInline → List MdInline × Bool
  | [] => ([], false)
  | x :: rest =>
    let c := fixChild fix d x
    let r := fixList fix d rest
    match fix c.1 (decide (0 < d)) with
    | .noChange => (c.1 :: r.1, c.2 || r.2)
    | .invalid => (c.1 :: r.1, c.2 || r.2)
    | .one y => (y :: r.1, true)
    | .many ys => (ys ++ r.1, true)

end

mutual

/-- Model of `fixBlock`: recurse through the text-bearing blocks; code blocks and
HTML blocks are not visited. -/
def fixBlock (fix : FixFn) : MdBlock → MdBlock × Bool
  | .quote bs =>
    let r := fixBlocks fix bs
    (.quote r.1, r.2)
  | .listBlock items =>
    let r := fixBlocks fix items
    (.listBlock r.1, r.2)
  | .item bs =>
    let r := fixBlocks fix bs
    (.item r.1, r.2)
  | .heading il =>
    let r := fixList fix 0 il
    (.heading r.1, r.2)
  | .paragraph il =>
    let r := fixList fix 0 il
    (.paragraph r.1, r.2)
  | .text il =>
    let r := fixList fix 0 il
    (.text r.1, r.2)
  | .codeBlock s => (.codeBlock s, false)
  | .htmlBlock s => (.htmlBlock s, false)

def fixBlocks (fix : FixFn) : List MdBlock → List MdBlock × Bool
  | [] => ([], false)
  | b :: rest =>
    let r := fixBlock fix b
    let rs := fixBlocks fix rest
    (r.1 :: rs.1, r.2 || rs.2)

end

/-- Model of `Fixer.fixOne(fix, doc)`: run one fix function over the document,
reporting whether it changed. -/
def fixOne (fix : FixFn) (doc : MdDoc) : MdDoc × Bool :=
  let r := fixBlocks fix doc.blocks
  (⟨r.1⟩, r.2)

/-- The loop of `Fixer.Fix` over the registered fixes. -/
def applyFixes (fixes : List FixFn) (doc : MdDoc) : MdDoc × Bool :=
  fixes.foldl (fun acc fx =>
    let r := fixOne fx acc.1
    (r.1, acc.2 || r.2)) (doc, false)

/-- Model of `Fixer.Fix(text)` with the Markdown parser and renderer abstracted:
parse, apply every fix, and return the re-rendered text with `true` when
some fix reported a change, and `("", false)` otherwise. -/
def FixerFix (parse : String → MdDoc) (render : MdDoc → String)
    (fixes : List FixFn) (text : String) : String × Bool :=
  let r := applyFixes fixes (parse text)
  if r.2 then (render r.1, true) else ("", false)

/-- The fix function registered by `Fixer.ReplaceText(pattern, repl)`, with
the compiled regular expression abstracted as `re`: `re s = none` models
`FindStringSubmatchIndex = nil` (no match, return nil) and `re s = some s2`
models `ReplaceAllString` producing `s2`. Only `markdown.Plain` nodes are
touched. -/
def replaceTextFix (re : String → Option String) : FixFn := fun x _ =>
  match x with
  | .plain s =>
    match re s with
    | none => .noChange
    | some s2 => .one (.plain s2)
  | _ => .noChange

mutual

/-- Erase the text of every plain inline, keeping all other structure. -/
def maskInline : MdInline → MdInline
  | .plain _ => .plain ""
  | .code s => .code s
  | .link u inner => .link u (maskList inner)
  | .autoLink s u => .autoLink s u
  | .emph inner => .emph (maskList inner)
  | .strong inner => .strong (maskList inner)
  | .del inner => .del (maskList inner)

def maskList : List MdInline → List MdInline
  | [] => []
  | x :: rest => maskInline x :: maskList rest

end

mutual

def maskBlock : MdBlock → MdBlock
  | .quote bs => .quote (maskBlocks bs)
  | .listBlock items => .listBlock (maskBlocks items)
  | .item bs => .item (maskBlocks bs)
  | .heading il => .heading (maskList il)
  | .paragraph il => .paragraph (maskList il)
  | .text il => .text (maskList il)
  | .codeBlock s => .codeBlock s
  | .htmlBlock s => .htmlBlock s

def maskBlocks : List MdBlock → List MdBlock
  | [] => []
  | b :: rest => maskBlock b :: maskBlocks rest

end

def maskDoc (doc : MdDoc) : MdDoc := ⟨maskBlocks doc.blocks⟩

mutual

/-- The inline code spans of an inline, in order. -/
def inlineCodes : MdInline → List String
  | .plain _ => []
  | .code s => [s]
  | .link _ inner => inlinesCodes inner
  | .autoLink _ _ => []
  | .emph inner => inlinesCodes inner
  | .strong inner => inlinesCodes inner
  | .del inner => inlinesCodes inner

def inlinesCodes : List MdInline → List String
  | [] => []
  | x :: rest => inlineCodes x ++ inlinesCodes rest

end

mutual

/-- The URL targets of links and autolinks in an inline, in order. -/
def inlineURLs : MdInline → List String
  | .plain _ => []
  | .code _ => []
  | .link u inner => u :: inlinesURLs inner
  | .autoLink _ u => [u]
  | .emph inner => inlinesURLs inner
  | .strong inner => inlinesURLs inner
  | .del inner => inlinesURLs inner

def inlinesURLs : List MdInline → List String
  | [] => []
  | x :: rest => inlineURLs x ++ inlinesURLs rest

end

mutual

def blockCodes : MdBlock → List String
  | .quote bs => blocksCodes bs
  | .listBlock items => blocksCodes items
  | .item bs => blocksCodes bs
  | .heading il => inlinesCodes il
  | .paragraph il => inlinesCodes il
  | .text il => inlinesCodes il
  | .codeBlock _ => []
  | .htmlBlock _ => []

def blocksCodes : List MdBlock → List String
  | [] => []
  | b :: rest => blockCodes b ++ blocksCodes rest

end

mutual

def blockURLs : MdBlock → List String
  | .quote bs => blocksURLs bs
  | .listBlock items => blocksURLs items
  | .item bs => blocksURLs bs
  | .heading il => inlinesURLs il
  | .paragraph il => inlinesURLs il
  | .text il => inlinesURLs il
  | .codeBlock _ => []
  | .htmlBlock _ => []

def blocksURLs : List MdBlock → List String
  | [] => []
  | b :: rest => blockURLs b ++ blocksURLs rest

end

mutual

/-- The bodies of code blocks, in order. -/
def blockCodeBlocks : MdBlock → List String
  | .quote bs => blocksCodeBlocks bs
  | .listBlock items => blocksCodeBlocks items
  | .item bs => blocksCodeBlocks bs
  | .heading _ => []
  | .paragraph _ => []
  | .text _ => []
  | .codeBlock s => [s]
  | .htmlBlock _ => []

def blocksCodeBlocks : List MdBlock → List String
  | [] => []
  | b :: rest => blockCodeBlocks b ++ blocksCodeBlocks rest

end

def docCodes (doc : MdDoc) : List String := blocksCodes doc.blocks

def docURLs (doc : MdDoc) : List String := blocksURLs doc.blocks

def docCodeBlocks (doc : MdDoc) : List String := blocksCodeBlocks doc.blocks

/-- The value stored under a primary key (defaulting for absent keys). -/
def primValOf (db : TimedDB) (kind key : String) : String :=
  match primGet db kind key with
  | some r => r.val
  | none => ""

/-- A concrete timed database used by witnesses. -/
def dbW : TimedDB :=
  ⟨[⟨"kind", "a", 1, "va"⟩, ⟨"kind", "b", 3, "vb"⟩],
   [⟨"kind", 1, "a"⟩, ⟨"kind", 3, "b"⟩], [("kind", "w", 1)], 3⟩

/-- Tactic-level characterization of `vrGE`, used inside the order
instances and in the search theorems. -/
def vrGEIffStmt : Prop :=
  ∀ a b : VectorResult,
    vrGE a b ↔ b.score < a.score ∨ (a.score = b.score ∧ b.id.data ≤ a.id.data)

def vrGEIffProof : vrGEIffStmt := by
  intro a b
  unfold vrGE VectorResult.cmpGo cmpInt cmpString
  by_cases h : a.score = b.score
  · rw [if_neg (by simp [h])]
    constructor
    · intro hge
      by_cases hk : a.id.data < b.id.data
      · rw [if_pos hk] at hge
        norm_num at hge
      · exact Or.inr ⟨h, not_lt.mp hk⟩
    · rintro (hlt | ⟨_, hle⟩)
      · exact absurd h (by omega)
      · rw [if_neg (not_lt.mpr hle)]
        split <;> norm_num
  · rw [if_pos h]
    constructor
    · intro hge
      by_cases hs : a.score < b.score
      · rw [if_pos hs] at hge
        norm_num at hge
      · exact Or.inl (lt_of_le_of_ne (not_lt.mp hs) fun e => h e.symm)
    · rintro (hlt | ⟨he, _⟩)
      · rw [if_neg (not_lt.mpr (le_of_lt hlt)), if_pos hlt]
        norm_num
      · exact absurd he h

instance : IsTotal VectorResult vrGE where
  total x y := by
    rcases lt_trichotomy x.score y.score with h | h | h
    · exact Or.inr ((vrGEIffProof y x).mpr (Or.inl h))
    · rcases le_total x.id.data y.id.data with hk | hk
      · exact Or.inr ((vrGEIffProof y x).mpr (Or.inr ⟨h.symm, hk⟩))
      · exact Or.inl ((vrGEIffProof x y).mpr (Or.inr ⟨h, hk⟩))
    · exact Or.inl ((vrGEIffProof x y).mpr (Or.inl h))

instance : IsTrans VectorResult vrGE where
  trans x y z hxy hyz := by
    rcases (vrGEIffProof x y).mp hxy with s1 | ⟨e1, i1⟩ <;>
      rcases (vrGEIffProof y z).mp hyz with s2 | ⟨e2, i2⟩
    · exact (vrGEIffProof x z).mpr (Or.inl (s2.trans s1))
    · exact (vrGEIffProof x z).mpr (Or.inl (e2 ▸ s1))
    · exact (vrGEIffProof x z).mpr (Or.inl (by rw [e1]; exact s2))
    · exact (vrGEIffProof x z).mpr (Or.inr ⟨e1.trans e2, i2.trans i1⟩)

/-- A concrete poster configuration used by witnesses. -/
def cfgW : PosterCfg := ⟨["p"], true, 0, 10, 0, []⟩

/-- A concrete issue event used by witnesses. -/
def eW : GhEvent := ⟨"p", 1, "/issues", 5, ⟨"open", false, some 5, "b", "t"⟩⟩

def vgetW : String → Option (List Int) := fun _ => some [1]

def vsearchW : List Int → Nat → List VectorResult := fun _ _ => [⟨"other", 5⟩]

/-! ## Shared helper lemmas -/

theorem primGet_some (db : TimedDB) (kind key : String) {r : PrimRow}
    (h : primGet db kind key = some r) :
    r ∈ db.prim ∧ r.kind = kind ∧ r.key = key := by
  have hm := List.mem_of_find?_eq_some h
  have hp := List.find?_some h
  simp only [Bool.and_eq_true, beq_iff_eq] at hp
  exact ⟨hm, hp.1, hp.2⟩

theorem primGet_none (db : TimedDB) (kind key : String)
    (h : primGet db kind key = none) :
    ∀ r ∈ db.prim, ¬(r.kind = kind ∧ r.key = key) := by
  intro r hr hk
  have := List.find?_eq_none.mp h r hr
  simp only [Bool.and_eq_true, beq_iff_eq] at this
  exact this ⟨hk.1, hk.2⟩

theorem prim_match_unique {l : List PrimRow}
    (hp : l.Pairwise fun r s => ¬(r.kind = s.kind ∧ r.key = s.key))
    {r s : PrimRow} (hr : r ∈ l) (hs : s ∈ l)
    (hk : r.kind = s.kind) (hkey : r.key = s.key) : r = s := by
  by_contra hne
  have hsym : Symmetric fun r s : PrimRow => ¬(r.kind = s.kind ∧ r.key = s.key) := by
    intro a b h hab
    exact h ⟨hab.1.symm, hab.2.symm⟩
  exact hp.forall hsym hr hs hne ⟨hk, hkey⟩

theorem primGet_of_mem {db : TimedDB}
    (hp : db.prim.Pairwise fun r s => ¬(r.kind = s.kind ∧ r.key = s.key))
    {r : PrimRow} (hr : r ∈ db.prim) :
    primGet db kind key = some s → r.kind = kind → r.key = key → s = r := by
  intro hfind hk hkey
  obtain ⟨hs, hsk, hskey⟩ := primGet_some db kind key hfind
  exact prim_match_unique hp hs hr (by rw [hsk, hk]) (by rw [hskey, hkey])

/-! ## C1: timed.Set / timed.Get round trip -/

/-- C1: for every kind, key and val: starting from a state satisfying the
timed-layer invariant, after `timed.Set(db, b, kind, key, val)` and
`b.Apply()`, `timed.Get` returns the entry with `Val = val` and a positive
`ModTime`, the database holds exactly one `kind+"ByTime"` index row for that
key, at exactly that modtime, and the old index row (if a primary row
existed) was deleted in the same batch. -/
theorem c1_timed_set_roundtrip (db : TimedDB) (clock : Int) (kind key val : String)
    (hInv : Inv db) :
    timedGet (applyBatch (timedSet clock db [] kind key val).2
        (timedSet clock db [] kind key val).1) kind key =
      some ⟨freshTime clock db, kind, key, val⟩ ∧
    0 < freshTime clock db ∧
    idxRowsFor (applyBatch (timedSet clock db [] kind key val).2
        (timedSet clock db [] kind key val).1) kind key =
      [⟨kind, freshTime clock db, key⟩] ∧
    (∀ old, primGet db kind key = some old →
      Op.delIdx kind old.modtime key ∈ (timedSet clock db [] kind key val).1) := by
  obtain ⟨hpair, hnodup, hlast, hptime, hitime, hidx2prim, hprim2idx, huniq⟩ := hInv
  have ht0 : 0 < freshTime clock db := by
    unfold freshTime
    split
    · omega
    · omega
  refine ⟨?_, ht0, ?_, ?_⟩
  · -- timedGet returns the fresh entry
    unfold timedSet
    cases hfind : primGet db kind key with
    | none =>
      simp [hfind, applyBatch, applyOp, timedGet, primGet, List.find?]
    | some old =>
      simp [hfind, applyBatch, applyOp, timedGet, primGet, List.find?]
  · -- exactly one index row for (kind, key)
    unfold timedSet
    cases hfind : primGet db kind key with
    | none =>
      simp only [hfind, List.nil_append, applyBatch, List.foldl, applyOp]
      unfold idxRowsFor
      simp only [List.filter_cons, beq_self_eq_true, Bool.and_self, if_pos]
      have hnone : ∀ i ∈ db.idx, ¬(i.kind = kind ∧ i.key = key) := by
        intro i hi hik
        obtain ⟨r, hr, hrk, hrkey, _⟩ := hidx2prim i hi
        exact primGet_none db kind key hfind r hr ⟨hrk.trans hik.1, hrkey.trans hik.2⟩
      have : List.filter (fun r => r.kind == kind && r.key == key)
          (List.filter (fun r => !(r == (⟨kind, freshTime clock db, key⟩ : IdxRow))) db.idx) = [] := by
        rw [List.filter_eq_nil_iff]
        intro i hi
        have hi0 : i ∈ db.idx := List.mem_of_mem_filter hi
        simp only [Bool.and_eq_true, beq_iff_eq, not_and]
        intro h1 h2
        exact hnone i hi0 ⟨h1, h2⟩
      simp [this]
    | some old =>
      obtain ⟨hold, holdk, holdkey⟩ := primGet_some db kind key hfind
      simp only [hfind, List.nil_append, applyBatch, List.foldl, applyOp]
      unfold idxRowsFor
      simp only [List.filter_cons, beq_self_eq_true, Bool.and_self, if_pos]
      have hmatch : ∀ i ∈ db.idx, i.kind = kind → i.key = key →
          i = ⟨kind, old.modtime, key⟩ := by
        intro i hi hik hikey
        obtain ⟨r, hr, hrk, hrkey, hrt⟩ := hidx2prim i hi
        have : old = r := primGet_of_mem hpair hr hfind (hrk.trans hik) (hrkey.trans hikey)
        cases i
        simp_all
      have : List.filter (fun r => r.kind == kind && r.key == key)
          (List.filter (fun r => !(r == (⟨kind, freshTime clock db, key⟩ : IdxRow)))
            (List.filter (fun r => !(r == (⟨kind, old.modtime, key⟩ : IdxRow))) db.idx)) = [] := by
        rw [List.filter_eq_nil_iff]
        intro i hi
        have hi1 := List.mem_of_mem_filter hi
        have hio : i ∈ db.idx := List.mem_of_mem_filter hi1
        have hlost := List.of_mem_filter hi1
        simp only [Bool.and_eq_true, beq_iff_eq, not_and]
        intro h1 h2
        have := hmatch i hio h1 h2
        simp [this] at hlost
      simp [this]
      intro a ha h1 h2 _
      exact hmatch a ha h1 h2
  · -- the old index row is deleted in the same batch
    intro old hold
    unfold timedSet
    simp [hold]

/-- Witness for C1 at a concrete database. -/
theorem c1_witness :
    Inv ⟨[⟨"kind", "k", 3, "old"⟩], [⟨"kind", 3, "k"⟩], [], 3⟩ ∧
    timedGet (applyBatch (timedSet 10 ⟨[⟨"kind", "k", 3, "old"⟩], [⟨"kind", 3, "k"⟩], [], 3⟩
        [] "kind" "k" "v").2
      (timedSet 10 ⟨[⟨"kind", "k", 3, "old"⟩], [⟨"kind", 3, "k"⟩], [], 3⟩
        [] "kind" "k" "v").1) "kind" "k" =
      some ⟨10, "kind", "k", "v"⟩ := by
  constructor
  · decide
  · have h := c1_timed_set_roundtrip ⟨[⟨"kind", "k", 3, "old"⟩], [⟨"kind", 3, "k"⟩], [], 3⟩
      10 "kind" "k" "v" (by decide)
    have : freshTime 10 ⟨[⟨"kind", "k", 3, "old"⟩], [⟨"kind", 3, "k"⟩], [], 3⟩ = 10 := by decide
    rw [this] at h
    exact h.1

/-! ## C2: ScanAfter skip and panic discipline -/

/-- C2: for every index row the `ScanAfter` loop visits (one that passes the
key filter): a missing primary row is skipped silently, a primary row whose
stored modtime exceeds the index time is skipped silently, and a primary row
whose stored modtime is below the index time makes the scan call `db.Panic`
(modelled as `Except.error ()`). -/
theorem c2_scan_after_discipline (db : TimedDB) (kind : String)
    (filter : Option (String → Bool)) (i : IdxRow) (rest : List IdxRow)
    (hpass : passes filter i.key = true) :
    (primGet db kind i.key = none →
      scanGo db kind filter (i :: rest) = scanGo db kind filter rest) ∧
    (∀ r, primGet db kind i.key = some r → i.modtime < r.modtime →
      scanGo db kind filter (i :: rest) = scanGo db kind filter rest) ∧
    (∀ r, primGet db kind i.key = some r → r.modtime < i.modtime →
      scanGo db kind filter (i :: rest) = Except.error ()) := by
  refine ⟨?_, ?_, ?_⟩
  · intro hnone
    simp [scanGo, hpass, hnone]
  · intro r hr hlt
    simp [scanGo, hpass, hr, hlt]
  · intro r hr hlt
    have hne : ¬ i.modtime < r.modtime := not_lt_of_gt hlt
    simp [scanGo, hpass, hr, hne, hlt]

/-- Witness for C2: a stale-future index row makes the scan panic. -/
theorem c2_witness :
    passes none "k" = true ∧
    scanGo ⟨[⟨"kind", "k", 1, "v"⟩], [⟨"kind", 7, "k"⟩], [], 7⟩ "kind" none
      [⟨"kind", 7, "k"⟩] = Except.error () := by
  refine ⟨by decide, ?_⟩
  exact (c2_scan_after_discipline ⟨[⟨"kind", "k", 1, "v"⟩], [⟨"kind", 7, "k"⟩], [], 7⟩
    "kind" none ⟨"kind", 7, "k"⟩ [] (by decide)).2.2 ⟨"kind", "k", 1, "v"⟩ (by decide)
    (by decide)

/-! ## C3: Watcher.Recent completeness and MarkOld monotonicity -/

theorem primGet_is_some {db : TimedDB}
    (hp : db.prim.Pairwise fun r s => ¬(r.kind = s.kind ∧ r.key = s.key))
    {r : PrimRow} (hr : r ∈ db.prim) : primGet db r.kind r.key = some r := by
  cases hfind : primGet db r.kind r.key with
  | none => exact absurd ⟨rfl, rfl⟩ (primGet_none _ _ _ hfind r hr)
  | some s => rw [primGet_of_mem hp hr hfind rfl rfl]

theorem scanGo_all_good (db : TimedDB) (kind : String) (rows : List IdxRow)
    (h : ∀ i ∈ rows, ∃ r, primGet db kind i.key = some r ∧ r.modtime = i.modtime) :
    scanGo db kind none rows =
      Except.ok (rows.map fun i => ⟨i.modtime, kind, i.key, primValOf db kind i.key⟩) := by
  induction rows with
  | nil => simp [scanGo]
  | cons i rest ih =>
    obtain ⟨r, hr, hrt⟩ := h i (List.mem_cons_self i rest)
    have ih2 := ih fun j hj => h j (List.mem_cons_of_mem i hj)
    have hval : primValOf db kind i.key = r.val := by
      unfold primValOf
      rw [hr]
    simp [scanGo, passes, hr, hrt, ih2, hval, Except.map]

theorem cursorGet_markOld (db : TimedDB) (kind name : String) (t : Int) :
    cursorGet (markOld db kind name t) kind name = max (cursorGet db kind name) t := by
  unfold markOld
  split
  · rw [max_eq_left (by assumption)]
  · rename_i hgt
    have hlt : cursorGet db kind name < t := lt_of_not_le hgt
    have : cursorGet (cursorSet db kind name t) kind name = t := by
      simp [cursorGet, cursorSet, List.find?]
    rw [this, max_eq_right (le_of_lt hlt)]

theorem cursorGet_foldl_markOld (db : TimedDB) (kind name : String) (ts : List Int) :
    cursorGet (ts.foldl (fun d t => markOld d kind name t) db) kind name =
      ts.foldl max (cursorGet db kind name) := by
  induction ts generalizing db with
  | nil => rfl
  | cons t rest ih =>
    simp only [List.foldl_cons]
    rw [ih, cursorGet_markOld]

/-- C3: under the timed-layer invariant, one iteration of `Watcher.Recent`
yields exactly the stored entries of the kind with modtime above the
persisted cursor, in strictly ascending modtime order; and `MarkOld(t)`
moves the cursor only forward, so a sequence of calls with non-monotone
values leaves the cursor at the maximum (a call with `t` at or below the
cursor changes nothing). -/
theorem c3_watcher_recent_markold (db : TimedDB) (kind name : String) (hInv : Inv db) :
    (∃ l, recent db kind name = Except.ok l ∧
      (∀ e, e ∈ l ↔ ∃ r ∈ db.prim, r.kind = kind ∧
          cursorGet db kind name < r.modtime ∧
          e = ⟨r.modtime, kind, r.key, r.val⟩) ∧
      l.Pairwise fun e1 e2 => e1.modtime < e2.modtime) ∧
    (∀ t, t ≤ cursorGet db kind name → markOld db kind name t = db) ∧
    (∀ ts : List Int,
      cursorGet (ts.foldl (fun d t => markOld d kind name t) db) kind name =
        ts.foldl max (cursorGet db kind name)) := by
  obtain ⟨hpair, hnodup, hlast, hptime, hitime, hidx2prim, hprim2idx, huniq⟩ := hInv
  refine ⟨?_, ?_, ?_⟩
  · set c := cursorGet db kind name with hc
    set S := scanRows db kind c with hS
    have hperm : S.Perm (db.idx.filter fun i => i.kind == kind && c < i.modtime) :=
      List.perm_insertionSort idxLE _
    have hmemS : ∀ i, i ∈ S ↔ i ∈ db.idx ∧ i.kind = kind ∧ c < i.modtime := by
      intro i
      rw [hperm.mem_iff, List.mem_filter]
      simp [decide_eq_true_eq]
    have hgood : ∀ i ∈ S, ∃ r, primGet db kind i.key = some r ∧ r.modtime = i.modtime := by
      intro i hi
      obtain ⟨hidx, hik, _⟩ := (hmemS i).mp hi
      obtain ⟨r, hr, hrk, hrkey, hrt⟩ := hidx2prim i hidx
      refine ⟨r, ?_, hrt⟩
      have := primGet_is_some hpair hr
      rwa [hrk, hrkey, hik] at this
    have hok : recent db kind name =
        Except.ok (S.map fun i => ⟨i.modtime, kind, i.key, primValOf db kind i.key⟩) := by
      unfold recent scanAfter
      exact scanGo_all_good db kind S hgood
    refine ⟨_, hok, ?_, ?_⟩
    · intro e
      constructor
      · intro he
        obtain ⟨i, hiS, hie⟩ := List.mem_map.mp he
        obtain ⟨hidx, hik, hit⟩ := (hmemS i).mp hiS
        obtain ⟨r, hr, hrk, hrkey, hrt⟩ := hidx2prim i hidx
        refine ⟨r, hr, hrk.trans hik, by rw [hrt]; exact hit, ?_⟩
        have hval : primValOf db kind i.key = r.val := by
          unfold primValOf
          have := primGet_is_some hpair hr
          rw [hrk, hrkey, hik] at this
          rw [this]
        rw [← hie, hval, hrt, hrkey]
      · rintro ⟨r, hr, hrk, hrt, rfl⟩
        have hidx : (⟨r.kind, r.modtime, r.key⟩ : IdxRow) ∈ db.idx := hprim2idx r hr
        have hiS : (⟨r.kind, r.modtime, r.key⟩ : IdxRow) ∈ S :=
          (hmemS _).mpr ⟨hidx, hrk, hrt⟩
        refine List.mem_map.mpr ⟨⟨r.kind, r.modtime, r.key⟩, hiS, ?_⟩
        have hval : primValOf db kind r.key = r.val := by
          unfold primValOf
          have := primGet_is_some hpair hr
          rw [hrk] at this
          rw [this]
        simp [hval]
    · have hsorted : S.Pairwise idxLE := List.sorted_insertionSort idxLE _
      have hnd : S.Nodup := hperm.nodup_iff.mpr (hnodup.filter _)
      have hne : S.Pairwise (· ≠ ·) := hnd
      have hstrict : S.Pairwise fun i j => i.modtime < j.modtime := by
        refine (hsorted.and hne).imp_of_mem ?_
        intro i j hi hj hij
        rcases hij.1 with hlt | ⟨heq, _⟩
        · exact hlt
        · obtain ⟨_, hik, _⟩ := (hmemS i).mp hi
          obtain ⟨_, hjk, _⟩ := (hmemS j).mp hj
          have hidx_i := ((hmemS i).mp hi).1
          have hidx_j := ((hmemS j).mp hj).1
          exact absurd (huniq i hidx_i j hidx_j (hik.trans hjk.symm) heq) hij.2
      rw [List.pairwise_map]
      exact hstrict
  · intro t hle
    simp [markOld, hle]
  · exact cursorGet_foldl_markOld db kind name

/-- Witness for C3 at a concrete database and watcher. -/
theorem c3_witness :
    Inv dbW ∧
    (∃ l, recent dbW "kind" "w" = Except.ok l ∧
      (∀ e, e ∈ l ↔ ∃ r ∈ dbW.prim, r.kind = "kind" ∧
          cursorGet dbW "kind" "w" < r.modtime ∧
          e = ⟨r.modtime, "kind", r.key, r.val⟩) ∧
      l.Pairwise fun e1 e2 => e1.modtime < e2.modtime) :=
  ⟨by decide, (c3_watcher_recent_markold dbW "kind" "w" (by decide)).1⟩

/-! ## C4: vector search ordering -/

/-- C4 counterexample: with two cached unit vectors of equal dot product
against the target, `Search` returns the larger id first — the comparator
ranks equal scores by id and results come back in decreasing comparator
order — so ties are broken by descending id, not ascending id as claimed. -/
theorem c4_counterexample :
    memSearch [("a", [1, 0]), ("b", [1, 0])] [1, 0] 2 =
      [⟨"b", 1⟩, ⟨"a", 1⟩] ∧
    memSearch [("a", [1, 0]), ("b", [1, 0])] [1, 0] 2 ≠
      [⟨"a", 1⟩, ⟨"b", 1⟩] ∧
    memSearch [("a", [1, 0]), ("b", [1, 0])] [1, 0] 1 = [⟨"b", 1⟩] := by
  refine ⟨by decide, by decide, by decide⟩

theorem candidates_ids_sublist (cache : List (String × List Int)) (target : List Int) :
    ((candidates cache target).map VectorResult.id).Sublist (cache.map Prod.fst) := by
  induction cache with
  | nil => simp [candidates]
  | cons p rest ih =>
    unfold candidates at *
    rw [List.filterMap_cons]
    split
    · exact ih.cons p.1
    · rename_i x hx
      rw [List.map_cons, List.map_cons]
      split at hx
      · cases hx
        exact ih.cons₂ p.1
      · cases hx

/-- C4 amended: `Search(target, n)` skips cached vectors whose length differs
from the target, scores the rest by dot product, and returns an `n`-element
prefix-optimal selection ordered best first under `VectorResult.cmp`: by
descending score, with ties in score broken by descending id (both in which
vectors are selected and in the output order). -/
theorem c4_search_amended (cache : List (String × List Int)) (target : List Int)
    (n : Nat) (hids : (cache.map Prod.fst).Nodup) :
    SearchSpec cache target n := by
  have hperm : (List.insertionSort vrGE (candidates cache target)).Perm
      (candidates cache target) := List.perm_insertionSort vrGE _
  have hsorted : (List.insertionSort vrGE (candidates cache target)).Pairwise vrGE :=
    List.sorted_insertionSort vrGE _
  have hms : memSearch cache target n =
      (List.insertionSort vrGE (candidates cache target)).take n := rfl
  generalize hS : List.insertionSort vrGE (candidates cache target) = S at hperm hsorted hms
  have hsplit : S.take n ++ S.drop n = S := List.take_append_drop n S
  refine ⟨S.drop n, ?_, ?_, ?_, ?_, ?_⟩
  · rw [hms, hsplit]
    exact hperm.symm
  · rw [hms]
    have := List.pairwise_append.mp (by rw [hsplit]; exact hsorted)
    exact this.2.2
  · rw [hms, List.length_take, hperm.length_eq]
  · rw [hms]
    have hsub : ((candidates cache target).map VectorResult.id).Nodup :=
      (candidates_ids_sublist cache target).nodup hids
    have hcandne : (candidates cache target).Pairwise fun a b => a.id ≠ b.id :=
      List.pairwise_map.mp hsub
    have hSne : S.Pairwise fun a b => a.id ≠ b.id := by
      refine (hperm.pairwise_iff ?_).mpr hcandne
      intro a b h e
      exact h e.symm
    have hSstrict : S.Pairwise vrStrictGT := by
      refine (hsorted.and hSne).imp ?_
      intro a b hab
      rcases (vrGEIffProof a b).mp hab.1 with hlt | ⟨he, hle⟩
      · exact Or.inl hlt
      · refine Or.inr ⟨he, lt_of_le_of_ne hle fun e => ?_⟩
        exact hab.2 (String.ext e).symm
    exact hSstrict.sublist (List.take_sublist n S)
  · rw [hms]
    intro x hx
    have hxS : x ∈ S := List.mem_of_mem_take hx
    have hxc : x ∈ candidates cache target := hperm.mem_iff.mp hxS
    obtain ⟨p, hp, hpx⟩ := List.mem_filterMap.mp hxc
    refine ⟨p, hp, ?_, ?_⟩
    · by_contra hne
      rw [if_neg hne] at hpx
      cases hpx
    · by_cases hlen : p.2.length = target.length
      · rw [if_pos hlen] at hpx
        cases hpx
        rfl
      · rw [if_neg hlen] at hpx
        cases hpx

/-- Witness for C4 (amended) at a concrete cache. -/
theorem c4_witness :
    ([("a", [2]), ("b", [1])].map Prod.fst).Nodup ∧
    SearchSpec [("a", [2]), ("b", [1])] [3] 1 :=
  ⟨by decide, c4_search_amended [("a", [2]), ("b", [1])] [3] 1 (by decide)⟩

/-! ## C5: related-issues poster idempotence -/

theorem stMarkOld_markers (st : PosterState) (t : Int) :
    (stMarkOld st t).markers = st.markers := by
  unfold stMarkOld
  split <;> rfl

/-- C5: with posting enabled, the `("triage.Posted", project, issue)` marker
is written exactly when `PostIssueComment` was called and succeeded; when the
marker is already present the event is skipped with no post and no state
change; hence after one successful post, reprocessing the same issue (with
any vector database, search results, and post outcome) never posts again. -/
theorem c5_related_poster_idempotence (cfg : PosterCfg)
    (vget : String → Option (List Int))
    (vsearch : List Int → Nat → List VectorResult) (postOk : Bool)
    (st : PosterState) (e : GhEvent) (hpost : cfg.post = true) :
    ((processEvent cfg vget vsearch postOk st e).state.markers =
      if (processEvent cfg vget vsearch postOk st e).posted then
        (e.project, e.issue) :: st.markers
      else st.markers) ∧
    ((processEvent cfg vget vsearch postOk st e).posted =
      ((processEvent cfg vget vsearch postOk st e).attempted && postOk)) ∧
    ((e.project, e.issue) ∈ st.markers →
      processEvent cfg vget vsearch postOk st e = ⟨st, false, false⟩) ∧
    ((processEvent cfg vget vsearch postOk st e).posted = true →
      ∀ (vg2 : String → Option (List Int))
        (vs2 : List Int → Nat → List VectorResult) (ok2 : Bool),
        processEvent cfg vg2 vs2 ok2
            (processEvent cfg vget vsearch postOk st e).state e =
          ⟨(processEvent cfg vget vsearch postOk st e).state, false, false⟩) := by
  have hmark : ∀ (st2 : PosterState) (vg2 : String → Option (List Int))
      (vs2 : List Int → Nat → List VectorResult) (ok2 : Bool),
      (e.project, e.issue) ∈ st2.markers →
      processEvent cfg vg2 vs2 ok2 st2 e = ⟨st2, false, false⟩ := by
    intro st2 vg2 vs2 ok2 hm
    unfold processEvent
    repeat' split
    all_goals simp_all
  have hout : processEvent cfg vget vsearch postOk st e = ⟨st, false, false⟩ ∨
      processEvent cfg vget vsearch postOk st e = ⟨stMarkOld st e.dbtime, false, false⟩ ∨
      (processEvent cfg vget vsearch postOk st e = ⟨st, true, false⟩ ∧ postOk = false) ∨
      (processEvent cfg vget vsearch postOk st e =
        ⟨⟨(e.project, e.issue) :: st.markers, (stMarkOld st e.dbtime).cursor⟩, true, true⟩ ∧
        postOk = true) := by
    unfold processEvent
    repeat' split
    all_goals simp_all
    all_goals tauto
  have h1 : (processEvent cfg vget vsearch postOk st e).state.markers =
      (if (processEvent cfg vget vsearch postOk st e).posted then
        (e.project, e.issue) :: st.markers else st.markers) := by
    rcases hout with h | h | ⟨h, hpk⟩ | ⟨h, hpk⟩ <;> rw [h] <;>
      simp [stMarkOld_markers]
  have h2 : (processEvent cfg vget vsearch postOk st e).posted =
      ((processEvent cfg vget vsearch postOk st e).attempted && postOk) := by
    rcases hout with h | h | ⟨h, hpk⟩ | ⟨h, hpk⟩
    · rw [h]
      simp
    · rw [h]
      simp
    · rw [h, hpk]
      simp
    · rw [h, hpk]
      simp
  refine ⟨h1, h2, hmark st vget vsearch postOk, ?_⟩
  intro hp vg2 vs2 ok2
  refine hmark _ vg2 vs2 ok2 ?_
  rw [h1, hp]
  simp

/-- Witness for C5 at a concrete configuration, event, and oracles. -/
theorem c5_witness :
    cfgW.post = true ∧
    ((processEvent cfgW vgetW vsearchW true ⟨[], 0⟩ eW).state.markers =
      if (processEvent cfgW vgetW vsearchW true ⟨[], 0⟩ eW).posted then
        (eW.project, eW.issue) :: (⟨[], 0⟩ : PosterState).markers
      else (⟨[], 0⟩ : PosterState).markers) ∧
    ((processEvent cfgW vgetW vsearchW true ⟨[], 0⟩ eW).posted = true →
      ∀ (vg2 : String → Option (List Int))
        (vs2 : List Int → Nat → List VectorResult) (ok2 : Bool),
        processEvent cfgW vg2 vs2 ok2
            (processEvent cfgW vgetW vsearchW true ⟨[], 0⟩ eW).state eW =
          ⟨(processEvent cfgW vgetW vsearchW true ⟨[], 0⟩ eW).state, false, false⟩) := by
  have h := c5_related_poster_idempotence cfgW vgetW vsearchW true ⟨[], 0⟩ eW rfl
  exact ⟨rfl, h.1, h.2.2.2⟩

/-! ## C6: incremental event sync and the lost-sync error -/

theorem stepMeta_cont_stopped (eventID issue : Int) (onlySetLatest : Bool)
    (etag : String) (ws : WalkState) (m : Meta) {w : WalkState}
    (h : stepMeta eventID issue onlySetLatest etag ws m = Except.ok (w, false)) :
    w.stopped = ws.stopped := by
  unfold stepMeta at h
  split_ifs at h <;> cases h <;> rfl

theorem stepMeta_break (eventID issue : Int) (onlySetLatest : Bool)
    (etag : String) (ws : WalkState) (m : Meta) {w : WalkState}
    (h : stepMeta eventID issue onlySetLatest etag ws m = Except.ok (w, true)) :
    issue = 0 ∧ (onlySetLatest = true ∨ (eventID ≠ 0 ∧ m.id ≤ eventID)) := by
  unfold stepMeta at h
  split_ifs at h <;> cases h <;> assumption

theorem walkMetas_stopped (eventID issue : Int) (onlySetLatest : Bool)
    (etag : String) (ms : List Meta) :
    ∀ ws w brk, walkMetas eventID issue onlySetLatest etag ws ms = Except.ok (w, brk) →
      ws.stopped = false → w.stopped = true →
      ∃ m ∈ ms, issue = 0 ∧ (onlySetLatest = true ∨ (eventID ≠ 0 ∧ m.id ≤ eventID)) := by
  induction ms with
  | nil =>
    intro ws w brk h h0 h1
    unfold walkMetas at h
    cases h
    rw [h0] at h1
    cases h1
  | cons m rest ih =>
    intro ws w brk h h0 h1
    unfold walkMetas at h
    cases hstep : stepMeta eventID issue onlySetLatest etag ws m with
    | error w2 =>
      rw [hstep] at h
      cases h
    | ok p =>
      rw [hstep] at h
      obtain ⟨ws1, b1⟩ := p
      cases b1 with
      | true =>
        exact ⟨m, List.mem_cons_self m rest, stepMeta_break _ _ _ _ _ _ hstep⟩
      | false =>
        have hpres := stepMeta_cont_stopped _ _ _ _ _ _ hstep
        obtain ⟨m2, hm2, hc⟩ := ih ws1 w brk h (hpres.trans h0) h1
        exact ⟨m2, List.mem_cons_of_mem m hm2, hc⟩

theorem walkMetas_cont_stopped (eventID issue : Int) (onlySetLatest : Bool)
    (etag : String) (ms : List Meta) :
    ∀ ws w, walkMetas eventID issue onlySetLatest etag ws ms = Except.ok (w, false) →
      w.stopped = ws.stopped := by
  induction ms with
  | nil =>
    intro ws w h
    unfold walkMetas at h
    cases h
    rfl
  | cons m rest ih =>
    intro ws w h
    unfold walkMetas at h
    cases hstep : stepMeta eventID issue onlySetLatest etag ws m with
    | error w2 =>
      rw [hstep] at h
      cases h
    | ok p =>
      rw [hstep] at h
      obtain ⟨ws1, b1⟩ := p
      cases b1 with
      | true => cases h
      | false => exact (ih ws1 w h).trans (stepMeta_cont_stopped _ _ _ _ _ _ hstep)

theorem walkPages_stopped (eventID issue : Int) (onlySetLatest : Bool)
    (pages : List Page) :
    ∀ ws w, walkPages eventID issue onlySetLatest ws pages = Except.ok w →
      ws.stopped = false → w.stopped = true →
      ∃ p ∈ pages, ∃ m ∈ p.body,
        issue = 0 ∧ (onlySetLatest = true ∨ (eventID ≠ 0 ∧ m.id ≤ eventID)) := by
  induction pages with
  | nil =>
    intro ws w h h0 h1
    unfold walkPages at h
    cases h
    rw [h0] at h1
    cases h1
  | cons p rest ih =>
    intro ws w h h0 h1
    unfold walkPages at h
    cases hm : walkMetas eventID issue onlySetLatest p.etag ws p.body with
    | error w2 =>
      rw [hm] at h
      cases h
    | ok q =>
      rw [hm] at h
      obtain ⟨ws1, b1⟩ := q
      cases b1 with
      | true =>
        cases h
        obtain ⟨m, hmm, hc⟩ := walkMetas_stopped _ _ _ _ _ ws w true hm h0 h1
        exact ⟨p, List.mem_cons_self p rest, m, hmm, hc⟩
      | false =>
        have hpres := walkMetas_cont_stopped _ _ _ _ _ ws ws1 hm
        obtain ⟨p2, hp2, m, hm2, hc⟩ := ih ws1 w h (hpres.trans h0) h1
        exact ⟨p2, List.mem_cons_of_mem p hp2, m, hm2, hc⟩

/-- C6: for an incremental event sync (`issue == 0`, `onlySetLatest == false`)
with a positive stored `EventID`: when the backward walk over the feed ends
with at least one event read but never stopped at a previously seen id, the
sync returns the "lost sync" error and leaves `EventID` and `EventETag`
unchanged; conversely a sync that does not fail either stopped at an id at
or below the stored `EventID` or read no events at all. -/
theorem c6_lost_sync (proj : ProjSync) (pages : List Page)
    (_hpos : 0 < proj.eventID) :
    (∀ ws, walkPages proj.eventID 0 false initWS pages = Except.ok ws →
      ws.lastID ≠ 0 → ws.stopped = false →
      syncIssueEvents proj 0 false pages = ⟨ws.written, true, proj⟩) ∧
    (∀ out, syncIssueEvents proj 0 false pages = out → out.failed = false →
      ∃ ws, walkPages proj.eventID 0 false initWS pages = Except.ok ws ∧
        (ws.stopped = true ∨ ws.lastID = 0)) ∧
    (∀ ws, walkPages proj.eventID 0 false initWS pages = Except.ok ws →
      ws.stopped = true → ∃ p ∈ pages, ∃ m ∈ p.body, m.id ≤ proj.eventID) := by
  constructor
  · intro ws hwalk hlast hstop
    have hred : syncIssueEvents proj 0 false pages =
        (if (0 : Int) = 0 ∧ ws.lastID ≠ 0 ∧ ws.stopped = false then
          (⟨ws.written, true, proj⟩ : SyncOut)
        else if (0 : Int) = 0 then ⟨ws.written, false, ⟨ws.firstID, ws.firstETag⟩⟩
        else ⟨ws.written, false, proj⟩) := by
      unfold syncIssueEvents
      rw [hwalk]
    rw [hred, if_pos ⟨rfl, hlast, hstop⟩]
  constructor
  · intro out hsync hfail
    cases hwalk : walkPages proj.eventID 0 false initWS pages with
    | error w =>
      have hred : syncIssueEvents proj 0 false pages = ⟨w.written, true, proj⟩ := by
        unfold syncIssueEvents
        rw [hwalk]
      rw [hred] at hsync
      rw [← hsync] at hfail
      cases hfail
    | ok ws =>
      have hred : syncIssueEvents proj 0 false pages =
          (if (0 : Int) = 0 ∧ ws.lastID ≠ 0 ∧ ws.stopped = false then
            (⟨ws.written, true, proj⟩ : SyncOut)
          else if (0 : Int) = 0 then ⟨ws.written, false, ⟨ws.firstID, ws.firstETag⟩⟩
          else ⟨ws.written, false, proj⟩) := by
        unfold syncIssueEvents
        rw [hwalk]
      refine ⟨ws, rfl, ?_⟩
      by_cases hstop : ws.stopped = true
      · exact Or.inl hstop
      by_cases hlast : ws.lastID = 0
      · exact Or.inr hlast
      exfalso
      have hstop2 : ws.stopped = false := by
        rcases Bool.eq_false_or_eq_true ws.stopped with h | h
        · exact absurd h hstop
        · exact h
      rw [hred, if_pos ⟨rfl, hlast, hstop2⟩] at hsync
      rw [← hsync] at hfail
      cases hfail
  · intro ws hwalk hstop
    obtain ⟨p, hp, m, hm, hc⟩ :=
      walkPages_stopped proj.eventID 0 false pages initWS ws hwalk rfl hstop
    rcases hc.2 with h | h
    · cases h
    · exact ⟨p, hp, m, hm, h.2⟩

/-- Witness for C6: a feed whose backward walk reads two events (ids 10, 9)
without reaching the stored `EventID` 5 fails with lost sync and leaves the
cursor unchanged. -/
theorem c6_witness :
    (0 : Int) < (5 : Int) ∧
    syncIssueEvents ⟨5, "e"⟩ 0 false [⟨"t", [⟨10, 3⟩, ⟨9, 3⟩]⟩] =
      ⟨[(3, 10), (3, 9)], true, ⟨5, "e"⟩⟩ := by
  refine ⟨by norm_num, ?_⟩
  have h := (c6_lost_sync ⟨5, "e"⟩ [⟨"t", [⟨10, 3⟩, ⟨9, 3⟩]⟩] (by norm_num)).1
  exact h ⟨10, "t", 9, false, [(3, 10), (3, 9)]⟩ (by rfl) (by decide) (by rfl)

/-! ## C7: rate-limit sleep (code bug) -/

/-- C7: the code bug in `Client.rateLimit`. At a 403 response with
`X-Ratelimit-Remaining: 0` and a reset time 120 seconds in the future, the
code computes the sleep `now.Sub(t) + 1*time.Minute = -60s` (clamped to 0 by
`time.Sleep`) and retries immediately, while the claim — and the function's
own doc comment, "sleeps until the time specified in the response, plus a
bit extra" — require sleeping 180 seconds, until reset plus one minute. -/
theorem c7_rate_limit_sleep_bug :
    rateLimitGo 403 "0" 1120 1000 = (true, 0) ∧
    rateLimitSpecSleep 1120 1000 = 180 ∧
    (rateLimitGo 403 "0" 1120 1000).2 ≠ rateLimitSpecSleep 1120 1000 := by
  refine ⟨by decide, by decide, by decide⟩

/-! ## C8: persisted key layout -/

/-- C8 counterexample: the four key layouts the claim lists do not match the
code, which prefixes every kind string (`githubdl.ProjectSync`,
`githubdl.Event`, `llm.Vector`, `triage.Posted`), not the bare names the
spec gives. -/
theorem c8_counterexample :
    projectSyncKey "golang/go" ≠
      [KElem.str "ProjectSync", KElem.str "golang/go"] ∧
    eventKey "golang/go" 1 "/issues" 7 ≠
      [KElem.str "Event", KElem.str "golang/go", KElem.int 1,
       KElem.str "/issues", KElem.int 7] ∧
    vectorKey "related" "u" ≠
      [KElem.str "Vector", KElem.str "related", KElem.str "u"] ∧
    postedKey "golang/go" 1 ≠
      [KElem.str "Posted", KElem.str "golang/go", KElem.int 1] := by
  refine ⟨by decide, by decide, by decide, by decide⟩

/-- C8 amended: every persisted row uses the tuple shapes of the spec's
layout but with the code's prefixed kind strings: project sync state under
`("githubdl.ProjectSync", project)`, mirrored events under
`("githubdl.Event", project, issue, api, id)` (built through `timed.Set`),
vectors under `("llm.Vector", namespace, id)`, and the poster's idempotence
marker under `("triage.Posted", project, issue)`. -/
theorem c8_key_layout (project ns docID api : String) (issue eid : Int) :
    projectSyncKey project =
      [KElem.str "githubdl.ProjectSync", KElem.str project] ∧
    eventKey project issue api eid =
      [KElem.str "githubdl.Event", KElem.str project, KElem.int issue,
       KElem.str api, KElem.int eid] ∧
    vectorKey ns docID =
      [KElem.str "llm.Vector", KElem.str ns, KElem.str docID] ∧
    postedKey project issue =
      [KElem.str "triage.Posted", KElem.str project, KElem.int issue] :=
  ⟨rfl, rfl, rfl, rfl⟩

/-! ## C9: replace-text safe zones -/

/-- The fix function of `ReplaceText` either leaves an inline alone or
replaces a plain node by a plain node. -/
theorem replaceTextFix_cases (re : String → Option String) (z : MdInline) (fl : Bool) :
    replaceTextFix re z fl = FixResult.noChange ∨
    ∃ s s2, z = MdInline.plain s ∧ re s = some s2 ∧
      replaceTextFix re z fl = FixResult.one (MdInline.plain s2) := by
  unfold replaceTextFix
  cases z <;> simp
  rename_i s
  cases hre : re s <;> simp

mutual

theorem maskInline_fixChild (re : String → Option String) (d : Nat) :
    ∀ x : MdInline, maskInline (fixChild (replaceTextFix re) d x).1 = maskInline x
  | .plain _ => rfl
  | .code _ => rfl
  | .autoLink _ _ => rfl
  | .link u inner => by
    simp only [fixChild, maskInline]
    rw [maskList_fixList re (d + 1) inner]
  | .emph inner => by
    simp only [fixChild, maskInline]
    rw [maskList_fixList re d inner]
  | .strong inner => by
    simp only [fixChild, maskInline]
    rw [maskList_fixList re d inner]
  | .del inner => by
    simp only [fixChild, maskInline]
    rw [maskList_fixList re d inner]

theorem maskList_fixList (re : String → Option String) (d : Nat) :
    ∀ l : List MdInline, maskList (fixList (replaceTextFix re) d l).1 = maskList l
  | [] => rfl
  | x :: rest => by
    have hx := maskInline_fixChild re d x
    have hr := maskList_fixList re d rest
    rcases replaceTextFix_cases re (fixChild (replaceTextFix re) d x).1 (decide (0 < d))
      with hnc | ⟨s, s2, hz, hre, hone⟩
    · simp only [fixList, hnc, maskList]
      rw [hx, hr]
    · simp only [fixList, hone, maskList]
      rw [hr, ← hx, hz]
      simp [maskInline]

end

mutual

theorem maskBlock_fixBlock (re : String → Option String) :
    ∀ b : MdBlock, maskBlock (fixBlock (replaceTextFix re) b).1 = maskBlock b
  | .quote bs => by
    simp only [fixBlock, maskBlock]
    rw [maskBlocks_fixBlocks re bs]
  | .listBlock items => by
    simp only [fixBlock, maskBlock]
    rw [maskBlocks_fixBlocks re items]
  | .item bs => by
    simp only [fixBlock, maskBlock]
    rw [maskBlocks_fixBlocks re bs]
  | .heading il => by
    simp only [fixBlock, maskBlock]
    rw [maskList_fixList re 0 il]
  | .paragraph il => by
    simp only [fixBlock, maskBlock]
    rw [maskList_fixList re 0 il]
  | .text il => by
    simp only [fixBlock, maskBlock]
    rw [maskList_fixList re 0 il]
  | .codeBlock _ => rfl
  | .htmlBlock _ => rfl

theorem maskBlocks_fixBlocks (re : String → Option String) :
    ∀ bs : List MdBlock, maskBlocks (fixBlocks (replaceTextFix re) bs).1 = maskBlocks bs
  | [] => rfl
  | b :: rest => by
    simp only [fixBlocks, maskBlocks]
    rw [maskBlock_fixBlock re b, maskBlocks_fixBlocks re rest]

end

mutual

theorem inlineCodes_mask : ∀ x : MdInline, inlineCodes (maskInline x) = inlineCodes x
  | .plain _ => rfl
  | .code _ => rfl
  | .autoLink _ _ => rfl
  | .link _ inner => by
    simp only [maskInline, inlineCodes]
    rw [inlinesCodes_mask inner]
  | .emph inner => by
    simp only [maskInline, inlineCodes]
    rw [inlinesCodes_mask inner]
  | .strong inner => by
    simp only [maskInline, inlineCodes]
    rw [inlinesCodes_mask inner]
  | .del inner => by
    simp only [maskInline, inlineCodes]
    rw [inlinesCodes_mask inner]

theorem inlinesCodes_mask : ∀ l : List MdInline, inlinesCodes (maskList l) = inlinesCodes l
  | [] => rfl
  | x :: rest => by
    simp only [maskList, inlinesCodes]
    rw [inlineCodes_mask x, inlinesCodes_mask rest]

end

mutual

theorem inlineURLs_mask : ∀ x : MdInline, inlineURLs (maskInline x) = inlineURLs x
  | .plain _ => rfl
  | .code _ => rfl
  | .autoLink _ _ => rfl
  | .link _ inner => by
    simp only [maskInline, inlineURLs]
    rw [inlinesURLs_mask inner]
  | .emph inner => by
    simp only [maskInline, inlineURLs]
    rw [inlinesURLs_mask inner]
  | .strong inner => by
    simp only [maskInline, inlineURLs]
    rw [inlinesURLs_mask inner]
  | .del inner => by
    simp only [maskInline, inlineURLs]
    rw [inlinesURLs_mask inner]

theorem inlinesURLs_mask : ∀ l : List MdInline, inlinesURLs (maskList l) = inlinesURLs l
  | [] => rfl
  | x :: rest => by
    simp only [maskList, inlinesURLs]
    rw [inlineURLs_mask x, inlinesURLs_mask rest]

end

mutual

theorem blockCodes_mask : ∀ b : MdBlock, blockCodes (maskBlock b) = blockCodes b
  | .quote bs => by
    simp only [maskBlock, blockCodes]
    rw [blocksCodes_mask bs]
  | .listBlock items => by
    simp only [maskBlock, blockCodes]
    rw [blocksCodes_mask items]
  | .item bs => by
    simp only [maskBlock, blockCodes]
    rw [blocksCodes_mask bs]
  | .heading il => by
    simp only [maskBlock, blockCodes]
    rw [inlinesCodes_mask il]
  | .paragraph il => by
    simp only [maskBlock, blockCodes]
    rw [inlinesCodes_mask il]
  | .text il => by
    simp only [maskBlock, blockCodes]
    rw [inlinesCodes_mask il]
  | .codeBlock _ => rfl
  | .htmlBlock _ => rfl

theorem blocksCodes_mask : ∀ bs : List MdBlock, blocksCodes (maskBlocks bs) = blocksCodes bs
  | [] => rfl
  | b :: rest => by
    simp only [maskBlocks, blocksCodes]
    rw [blockCodes_mask b, blocksCodes_mask rest]

end

mutual

theorem blockURLs_mask : ∀ b : MdBlock, blockURLs (maskBlock b) = blockURLs b
  | .quote bs => by
    simp only [maskBlock, blockURLs]
    rw [blocksURLs_mask bs]
  | .listBlock items => by
    simp only [maskBlock, blockURLs]
    rw [blocksURLs_mask items]
  | .item bs => by
    simp only [maskBlock, blockURLs]
    rw [blocksURLs_mask bs]
  | .heading il => by
    simp only [maskBlock, blockURLs]
    rw [inlinesURLs_mask il]
  | .paragraph il => by
    simp only [maskBlock, blockURLs]
    rw [inlinesURLs_mask il]
  | .text il => by
    simp only [maskBlock, blockURLs]
    rw [inlinesURLs_mask il]
  | .codeBlock _ => rfl
  | .htmlBlock _ => rfl

theorem blocksURLs_mask : ∀ bs : List MdBlock, blocksURLs (maskBlocks bs) = blocksURLs bs
  | [] => rfl
  | b :: rest => by
    simp only [maskBlocks, blocksURLs]
    rw [blockURLs_mask b, blocksURLs_mask rest]

end

mutual

theorem blockCodeBlocks_mask :
    ∀ b : MdBlock, blockCodeBlocks (maskBlock b) = blockCodeBlocks b
  | .quote bs => by
    simp only [maskBlock, blockCodeBlocks]
    rw [blocksCodeBlocks_mask bs]
  | .listBlock items => by
    simp only [maskBlock, blockCodeBlocks]
    rw [blocksCodeBlocks_mask items]
  | .item bs => by
    simp only [maskBlock, blockCodeBlocks]
    rw [blocksCodeBlocks_mask bs]
  | .heading _ => rfl
  | .paragraph _ => rfl
  | .text _ => rfl
  | .codeBlock _ => rfl
  | .htmlBlock _ => rfl

theorem blocksCodeBlocks_mask :
    ∀ bs : List MdBlock, blocksCodeBlocks (maskBlocks bs) = blocksCodeBlocks bs
  | [] => rfl
  | b :: rest => by
    simp only [maskBlocks, blocksCodeBlocks]
    rw [blockCodeBlocks_mask b, blocksCodeBlocks_mask rest]

end

/-- C9: a `ReplaceText` rule never alters inline code spans, code blocks, or
the URL targets of links and autolinks, and touches nothing but the text of
plain inline nodes (the document with all plain text erased is unchanged):
substitution happens only in Markdown plain-text inlines reached through the
text-bearing blocks. -/
theorem c9_replace_text_safe_zones (re : String → Option String) (doc : MdDoc) :
    docCodes (fixOne (replaceTextFix re) doc).1 = docCodes doc ∧
    docCodeBlocks (fixOne (replaceTextFix re) doc).1 = docCodeBlocks doc ∧
    docURLs (fixOne (replaceTextFix re) doc).1 = docURLs doc ∧
    maskDoc (fixOne (replaceTextFix re) doc).1 = maskDoc doc := by
  have hmask : maskBlocks (fixBlocks (replaceTextFix re) doc.blocks).1 =
      maskBlocks doc.blocks := maskBlocks_fixBlocks re doc.blocks
  refine ⟨?_, ?_, ?_, ?_⟩
  · show blocksCodes (fixBlocks (replaceTextFix re) doc.blocks).1 = blocksCodes doc.blocks
    rw [← blocksCodes_mask (fixBlocks (replaceTextFix re) doc.blocks).1, hmask,
      blocksCodes_mask]
  · show blocksCodeBlocks (fixBlocks (replaceTextFix re) doc.blocks).1 =
      blocksCodeBlocks doc.blocks
    rw [← blocksCodeBlocks_mask (fixBlocks (replaceTextFix re) doc.blocks).1, hmask,
      blocksCodeBlocks_mask]
  · show blocksURLs (fixBlocks (replaceTextFix re) doc.blocks).1 = blocksURLs doc.blocks
    rw [← blocksURLs_mask (fixBlocks (replaceTextFix re) doc.blocks).1, hmask,
      blocksURLs_mask]
  · show (⟨maskBlocks (fixBlocks (replaceTextFix re) doc.blocks).1⟩ : MdDoc) =
      ⟨maskBlocks doc.blocks⟩
    rw [hmask]

/-! ## C10: Fix returns ("", false) in the unchanged case -/

mutual

theorem fixChild_unchanged (fix : FixFn) (d : Nat) :
    ∀ x : MdInline, (fixChild fix d x).2 = false → (fixChild fix d x).1 = x
  | .plain _, _ => rfl
  | .code _, _ => rfl
  | .autoLink _ _, _ => rfl
  | .link u inner, h => by
    simp only [fixChild] at h ⊢
    rw [fixList_unchanged fix (d + 1) inner h]
  | .emph inner, h => by
    simp only [fixChild] at h ⊢
    rw [fixList_unchanged fix d inner h]
  | .strong inner, h => by
    simp only [fixChild] at h ⊢
    rw [fixList_unchanged fix d inner h]
  | .del inner, h => by
    simp only [fixChild] at h ⊢
    rw [fixList_unchanged fix d inner h]

theorem fixList_unchanged (fix : FixFn) (d : Nat) :
    ∀ l : List MdInline, (fixList fix d l).2 = false → (fixList fix d l).1 = l
  | [], _ => rfl
  | x :: rest, h => by
    rcases hfix : fix (fixChild fix d x).1 (decide (0 < d)) with _ | y | ys | _
    · simp only [fixList, hfix] at h ⊢
      rcases Bool.or_eq_false_iff.mp h with ⟨h1, h2⟩
      rw [fixChild_unchanged fix d x h1, fixList_unchanged fix d rest h2]
    · simp only [fixList, hfix] at h
      cases h
    · simp only [fixList, hfix] at h
      cases h
    · simp only [fixList, hfix] at h ⊢
      rcases Bool.or_eq_false_iff.mp h with ⟨h1, h2⟩
      rw [fixChild_unchanged fix d x h1, fixList_unchanged fix d rest h2]

end

mutual

theorem fixBlock_unchanged (fix : FixFn) :
    ∀ b : MdBlock, (fixBlock fix b).2 = false → (fixBlock fix b).1 = b
  | .quote bs, h => by
    simp only [fixBlock] at h ⊢
    rw [fixBlocks_unchanged fix bs h]
  | .listBlock items, h => by
    simp only [fixBlock] at h ⊢
    rw [fixBlocks_unchanged fix items h]
  | .item bs, h => by
    simp only [fixBlock] at h ⊢
    rw [fixBlocks_unchanged fix bs h]
  | .heading il, h => by
    simp only [fixBlock] at h ⊢
    rw [fixList_unchanged fix 0 il h]
  | .paragraph il, h => by
    simp only [fixBlock] at h ⊢
    rw [fixList_unchanged fix 0 il h]
  | .text il, h => by
    simp only [fixBlock] at h ⊢
    rw [fixList_unchanged fix 0 il h]
  | .codeBlock _, _ => rfl
  | .htmlBlock _, _ => rfl

theorem fixBlocks_unchanged (fix : FixFn) :
    ∀ bs : List MdBlock, (fixBlocks fix bs).2 = false → (fixBlocks fix bs).1 = bs
  | [], _ => rfl
  | b :: rest, h => by
    simp only [fixBlocks] at h ⊢
    rcases Bool.or_eq_false_iff.mp h with ⟨h1, h2⟩
    rw [fixBlock_unchanged fix b h1, fixBlocks_unchanged fix rest h2]

end

theorem fixOne_unchanged (fix : FixFn) (doc : MdDoc) :
    (fixOne fix doc).2 = false → (fixOne fix doc).1 = doc := by
  intro h
  unfold fixOne at h ⊢
  simp only []
  rw [fixBlocks_unchanged fix doc.blocks h]

theorem applyFixes_foldl_unchanged (fixes : List FixFn) :
    ∀ (d : MdDoc) (b : Bool),
      (fixes.foldl (fun acc fx =>
        let r := fixOne fx acc.1
        (r.1, acc.2 || r.2)) (d, b)).2 = false →
      (fixes.foldl (fun acc fx =>
        let r := fixOne fx acc.1
        (r.1, acc.2 || r.2)) (d, b)).1 = d ∧ b = false := by
  induction fixes with
  | nil =>
    intro d b h
    exact ⟨rfl, h⟩
  | cons fx rest ih =>
    intro d b h
    simp only [List.foldl_cons] at h ⊢
    obtain ⟨h1, h2⟩ := ih (fixOne fx d).1 (b || (fixOne fx d).2) h
    rcases Bool.or_eq_false_iff.mp h2 with ⟨hb, hfx⟩
    refine ⟨?_, hb⟩
    rw [h1, fixOne_unchanged fx d hfx]

/-- C10: when no configured rule reports a change on the parsed document,
`Fix(text)` returns the empty string and `false` (the document is in fact
unchanged, and the original text is not returned); when some rule reports a
change it returns the re-rendered Markdown of the modified document and
`true`. -/
theorem c10_fix_unchanged (parse : String → MdDoc) (render : MdDoc → String)
    (fixes : List FixFn) (text : String) :
    ((applyFixes fixes (parse text)).2 = false →
      FixerFix parse render fixes text = ("", false) ∧
      (applyFixes fixes (parse text)).1 = parse text) ∧
    ((applyFixes fixes (parse text)).2 = true →
      FixerFix parse render fixes text =
        (render (applyFixes fixes (parse text)).1, true)) := by
  constructor
  · intro h
    refine ⟨?_, (applyFixes_foldl_unchanged fixes (parse text) false h).1⟩
    simp [FixerFix, h]
  · intro h
    simp [FixerFix, h]

/-- Witness for C10: with no rules, Fix returns the empty string and false. -/
theorem c10_witness :
    (applyFixes [] ((fun _ => (⟨[]⟩ : MdDoc)) "hello")).2 = false ∧
    FixerFix (fun _ => (⟨[]⟩ : MdDoc)) (fun _ => "rendered") [] "hello" = ("", false) :=
  ⟨rfl, ((c10_fix_unchanged (fun _ => ⟨[]⟩) (fun _ => "rendered") [] "hello").1 rfl).1⟩

end Gaby
